import Mathlib

/-
  Verification of the tetrise.h surface-mesh tetrahedralization core
  (ProbeDeformerMaya).  The C++ functions of namespace Tetrise are
  shallowly embedded as Lean functions:

  * machine doubles are modelled as exact rationals (for the combinatorial
    and filtering code, which performs only field operations and
    comparisons) or as real numbers (for the frame builders, which take
    square roots);
  * std::vector outputs that are filled by indexed assignment are built by
    structural recursion producing the same flat lists;
  * std::map<couple<int>,int> is modelled as an association list (the code
    inserts a key only when it is absent, so keys are unique);
  * mutation of a vector through push_back at computed indices
    (adjacency lists, weight scatter) is modelled as explicit state
    passing over total maps Nat -> _;
  * operations that are undefined on bad input (the while-loop searching a
    third vertex, which the source guards with assert(k<3); division by a
    zero denominator, which produces NaN on doubles; inversion of a
    singular matrix) are modelled with Option, returning none there.
-/

namespace Tetrise

/-- tetrahedra construction mode TM_FACE from tetrise.h -/
def TM_FACE : ℕ := 0

/-- tetrahedra construction mode TM_EDGE from tetrise.h -/
def TM_EDGE : ℕ := 1

/-- tetrahedra construction mode TM_VERTEX from tetrise.h -/
def TM_VERTEX : ℕ := 2

/-- tetrahedra construction mode TM_VFACE from tetrise.h -/
def TM_VFACE : ℕ := 10

/-- threshold for being zero; the source sets EPSILON to 10e-6 -/
def EPSILON : ℚ := 1 / 100000

/-- edge data: two endpoint vertex indices and the two adjacent face indices -/
structure edge where
  v0 : ℕ
  v1 : ℕ
  f0 : ℕ
  f1 : ℕ
deriving DecidableEq

/-- vertex data: Maya vertex index and the fan list of neighbour indices -/
structure vertex where
  index : ℕ
  connectedTriangles : List ℕ
deriving DecidableEq

/-- view of a flat tetrahedron list as 4-tuples (a trailing incomplete
group, which the source never produces, is ignored) -/
def tetras : List ℕ → List (ℕ × ℕ × ℕ × ℕ)
  | a :: b :: c :: d :: rest => (a, b, c, d) :: tetras rest
  | _ => []

/-- view of a flat face list as successive triples (the source iterates
i < faceList.size()/3, ignoring a trailing incomplete triple) -/
def triples : List ℕ → List (ℕ × ℕ × ℕ)
  | a :: b :: c :: rest => (a, b, c) :: triples rest
  | _ => []

/-- the fan of a vertex split into consecutive neighbour pairs; the source
iterates j < connectedTriangles.size()/2, so a trailing odd element is
dropped -/
def wedges : List ℕ → List (ℕ × ℕ)
  | a :: b :: rest => (a, b) :: wedges rest
  | _ => []

/-- canonicalised pair: the source swaps so that the smaller index is first -/
def cpair (s t : ℕ) : ℕ × ℕ := if s > t then (t, s) else (s, t)

/-- association-list lookup standing for std::map<couple<int>,int>::find -/
def lookupPair (m : List ((ℕ × ℕ) × ℕ)) (pa : ℕ × ℕ) : Option ℕ :=
  match m with
  | [] => none
  | (k, v) :: rest => if pa = k then some v else lookupPair rest pa

/-- the canonical (face, s, t) slot produced for face i, corner j of
makeEdgeList's double loop, with s <= t, flattened over all faces -/
def slots (i : ℕ) : List ℕ → List (ℕ × ℕ × ℕ)
  | x :: y :: z :: rest =>
      (i, cpair x y) :: (i, cpair y z) :: (i, cpair z x) :: slots (i + 1) rest
  | _ => []

/-- the accumulation loop of makeEdgeList: on first sighting of a canonical
pair the face is recorded in the map, on a later sighting an edge is
emitted carrying the recorded first face and the current face -/
def makeEdgeListGo (seen : List ((ℕ × ℕ) × ℕ)) : List (ℕ × ℕ × ℕ) → List edge
  | [] => []
  | (f, s, t) :: rest =>
      match lookupPair seen (s, t) with
      | none => makeEdgeListGo (((s, t), f) :: seen) rest
      | some f0 => ⟨s, t, f0, f⟩ :: makeEdgeListGo seen rest

/-- makeEdgeList from tetrise.h: the list of inner edges of a face list -/
def makeEdgeList (faceList : List ℕ) : List edge :=
  makeEdgeListGo [] (slots 0 faceList)

/-- TM_FACE branch of makeTetList: face corners plus the ghost apex
numPts + i per face -/
def faceTets (numPts i : ℕ) : List ℕ → List ℕ
  | a :: b :: c :: rest => a :: b :: c :: (i + numPts) :: faceTets numPts (i + 1) rest
  | _ => []

/-- the while loop of the TM_EDGE branch: first k < 3 such that corner k of
face f is not an endpoint of the edge; none models the assert(k<3)
violation on malformed input -/
def findThird (fl : List ℕ) (f s t : ℕ) : Option ℕ :=
  if fl.getD (3 * f) 0 ≠ s ∧ fl.getD (3 * f) 0 ≠ t then some 0
  else if fl.getD (3 * f + 1) 0 ≠ s ∧ fl.getD (3 * f + 1) 0 ≠ t then some 1
  else if fl.getD (3 * f + 2) 0 ≠ s ∧ fl.getD (3 * f + 2) 0 ≠ t then some 2
  else none

/-- one tetrahedron of the TM_EDGE branch: corners of face f rotated so
that the two edge endpoints come first, then the ghost apex -/
def edgeFaceTet (fl : List ℕ) (e : edge) (f apex : ℕ) : Option (ℕ × ℕ × ℕ × ℕ) :=
  match findThird fl f e.v0 e.v1 with
  | none => none
  | some k =>
      some (fl.getD (3 * f + (k + 1) % 3) 0, fl.getD (3 * f + (k + 2) % 3) 0,
            fl.getD (3 * f + k) 0, apex)

/-- TM_EDGE branch of makeTetList: two tetrahedra per edge sharing ghost
apex i + numPts -/
def edgeTets (numPts : ℕ) (fl : List ℕ) : ℕ → List edge → Option (List ℕ)
  | _, [] => some []
  | i, e :: es => do
      let t0 ← edgeFaceTet fl e e.f0 (i + numPts)
      let t1 ← edgeFaceTet fl e e.f1 (i + numPts)
      let rest ← edgeTets numPts fl (i + 1) es
      pure (t0.1 :: t0.2.1 :: t0.2.2.1 :: t0.2.2.2 ::
            t1.1 :: t1.2.1 :: t1.2.2.1 :: t1.2.2.2 :: rest)

/-- wedge tetrahedra of one vertex in TM_VERTEX mode, all sharing apex -/
def wedgeTetsV (apex vIdx : ℕ) : List (ℕ × ℕ) → List ℕ
  | [] => []
  | (s, t) :: ws => vIdx :: s :: t :: apex :: wedgeTetsV apex vIdx ws

/-- TM_VERTEX branch of makeTetList: per vertex i the ghost apex is
numPts + i, shared by all its wedges -/
def vertTets (numPts i : ℕ) : List vertex → List ℕ
  | [] => []
  | v :: vs =>
      wedgeTetsV (numPts + i) v.index (wedges v.connectedTriangles)
        ++ vertTets numPts (i + 1) vs

/-- wedge tetrahedra of one vertex in TM_VFACE mode, each with its own
ghost apex numPts + cur, cur a running wedge counter -/
def wedgeTetsF (numPts vIdx cur : ℕ) : List (ℕ × ℕ) → List ℕ
  | [] => []
  | (s, t) :: ws => vIdx :: s :: t :: (numPts + cur) :: wedgeTetsF numPts vIdx (cur + 1) ws

/-- TM_VFACE branch of makeTetList -/
def vfaceTets (numPts cur : ℕ) : List vertex → List ℕ
  | [] => []
  | v :: vs =>
      wedgeTetsF numPts v.index cur (wedges v.connectedTriangles)
        ++ vfaceTets numPts (cur + v.connectedTriangles.length / 2) vs

/-- makeTetList from tetrise.h; returns the flat tetrahedron list and the
total point count dim (real plus ghost points); none when the TM_EDGE
while-loop guard assert(k<3) would be violated -/
def makeTetList (tetMode numPts : ℕ) (faceList : List ℕ)
    (edgeList : List edge) (vertexList : List vertex) : Option (List ℕ × ℕ) :=
  if tetMode = TM_FACE then
    some (faceTets numPts 0 faceList, faceList.length / 3 + numPts)
  else if tetMode = TM_EDGE then
    (edgeTets numPts faceList 0 edgeList).map (fun tl => (tl, numPts + edgeList.length))
  else if tetMode = TM_VERTEX then
    some (vertTets numPts 0 vertexList, numPts + vertexList.length)
  else if tetMode = TM_VFACE then
    let tl := vfaceTets numPts 0 vertexList
    some (tl, numPts + tl.length / 4)
  else
    some ([], 0)

/-- point-to-tetrahedron averaging for TM_FACE: one weight per 4-group of
the tetrahedron list, the mean of the three corner weights -/
def weightFace (pw : ℕ → ℚ) : List ℕ → List ℚ
  | p0 :: p1 :: p2 :: _ :: rest => (pw p0 + pw p1 + pw p2) / 3 :: weightFace pw rest
  | _ => []

/-- makeWeightList from tetrise.h: tetrahedra weights from point weights -/
def makeWeightList (tetMode : ℕ) (tetList : List ℕ) (faceList : List ℕ)
    (edgeList : List edge) (vertexList : List vertex) (ptsWeight : ℕ → ℚ) : List ℚ :=
  if tetMode = TM_FACE then
    weightFace ptsWeight tetList
  else if tetMode = TM_EDGE then
    edgeList.flatMap (fun e =>
      [(ptsWeight e.v0 + ptsWeight e.v1) / 2, (ptsWeight e.v0 + ptsWeight e.v1) / 2])
  else if tetMode = TM_VERTEX ∨ tetMode = TM_VFACE then
    (tetras tetList).map (fun t => ptsWeight t.1)
  else
    List.replicate (tetList.length / 4) 0

/-- add w to the accumulated weight of point x -/
def addAt (w : ℚ) (x : ℕ) (acc : ℕ → ℚ) : ℕ → ℚ :=
  fun y => if y = x then acc y + w else acc y

/-- tetrahedron-to-point scatter for TM_FACE: each tetrahedron weight is
added to its three corner points -/
def scatterFace (acc : ℕ → ℚ) : List ℕ → List ℚ → ℕ → ℚ
  | p0 :: p1 :: p2 :: _ :: rest, w :: ws =>
      scatterFace (addAt w p2 (addAt w p1 (addAt w p0 acc))) rest ws
  | _, _ => acc

/-- tetrahedron-to-point scatter for TM_EDGE: the sum of both tetrahedron
weights of an edge is added to both endpoints -/
def scatterEdge (acc : ℕ → ℚ) : List edge → List ℚ → ℕ → ℚ
  | e :: es, w0 :: w1 :: ws =>
      scatterEdge (addAt (w0 + w1) e.v1 (addAt (w0 + w1) e.v0 acc)) es ws
  | _, _ => acc

/-- tetrahedron-to-point scatter for TM_VERTEX / TM_VFACE: each weight is
added to the fan vertex (first corner) -/
def scatterVert (acc : ℕ → ℚ) : List ℕ → List ℚ → ℕ → ℚ
  | p0 :: _ :: _ :: _ :: rest, w :: ws => scatterVert (addAt w p0 acc) rest ws
  | _, _ => acc

/-- makePtsWeightList from tetrise.h: point weights from tetrahedra
weights, starting from all zeros and summing (not averaging) -/
def makePtsWeightList (tetMode numPts : ℕ) (tetList : List ℕ) (faceList : List ℕ)
    (edgeList : List edge) (vertexList : List vertex) (tetWeight : List ℚ) : ℕ → ℚ :=
  if tetMode = TM_FACE then
    scatterFace (fun _ => 0) tetList tetWeight
  else if tetMode = TM_EDGE then
    scatterEdge (fun _ => 0) edgeList tetWeight
  else if tetMode = TM_VERTEX ∨ tetMode = TM_VFACE then
    scatterVert (fun _ => 0) tetList tetWeight
  else
    fun _ => 0

/-- the corner points (first three entries of each 4-group) of a flat
tetrahedron list -/
def cornerList : List ℕ → List ℕ
  | p0 :: p1 :: p2 :: _ :: rest => p0 :: p1 :: p2 :: cornerList rest
  | _ => []

/-- the flat face list truncated to its complete triples -/
def flatTriples : List ℕ → List ℕ
  | x :: y :: z :: rest => x :: y :: z :: flatTriples rest
  | _ => []

/-- a 4x4 matrix of rationals, stored as four rows of four entries -/
abbrev Mat4 : Type := (ℚ × ℚ × ℚ × ℚ) × (ℚ × ℚ × ℚ × ℚ) × (ℚ × ℚ × ℚ × ℚ) × (ℚ × ℚ × ℚ × ℚ)

/-- the zero 4x4 matrix, used as the out-of-range default -/
def mat0 : Mat4 := ((0, 0, 0, 0), (0, 0, 0, 0), (0, 0, 0, 0), (0, 0, 0, 0))

/-- determinant of a 3x3 matrix given by rows -/
def det3 (a b c d e f g h i : ℚ) : ℚ :=
  a * (e * i - f * h) - b * (d * i - f * g) + c * (d * h - e * g)

/-- determinant of a 4x4 matrix, Laplace expansion along the first row -/
def det4 (m : Mat4) : ℚ :=
  match m with
  | ((a, b, c, d), (e, f, g, h), (i, j, k, l), (p, q, r, s)) =>
      a * det3 f g h j k l q r s
      - b * det3 e g h i k l p r s
      + c * det3 e f h i j l p q s
      - d * det3 e f g i j k p q r

/-- the degeneracy test of removeDegenerate: |det| strictly above EPSILON -/
def goodDet (m : Mat4) : Bool := EPSILON < |det4 m|

/-- TM_EDGE branch of removeDegenerate: edge i survives only when both its
tetrahedra frames P[2i] and P[2i+1] are non-degenerate -/
def filterEdges (P : List Mat4) : ℕ → List edge → List edge
  | _, [] => []
  | i, e :: es =>
      if goodDet (P.getD (2 * i) mat0) ∧ goodDet (P.getD (2 * i + 1) mat0) then
        e :: filterEdges P (i + 1) es
      else
        filterEdges P (i + 1) es

/-- TM_VERTEX / TM_VFACE branch of removeDegenerate: vertex survives only
when all of its wedge frames are non-degenerate; cur counts wedges over
the whole list -/
def filterVerts (P : List Mat4) : ℕ → List vertex → List vertex
  | _, [] => []
  | cur, v :: vs =>
      let k := v.connectedTriangles.length / 2
      if (List.range k).all (fun j => goodDet (P.getD (cur + j) mat0)) then
        v :: filterVerts P (cur + k) vs
      else
        filterVerts P (cur + k) vs

/-- TM_FACE branch of removeDegenerate: faces with non-degenerate frame
survive, then the edge list is rebuilt from the surviving faces -/
def filterFaces (P : List Mat4) (numTet : ℕ) (fl : List ℕ) : List ℕ :=
  ((List.range numTet).filter (fun i => goodDet (P.getD i mat0))).flatMap
    (fun i => [fl.getD (3 * i) 0, fl.getD (3 * i + 1) 0, fl.getD (3 * i + 2) 0])

/-- removeDegenerate from tetrise.h: filters the base lists by frame
determinant and rebuilds the tetrahedron list via makeTetList; the result
is (faceList, edgeList, vertexList, tetList, dim) -/
def removeDegenerate (tetMode numPts : ℕ) (tetList faceList : List ℕ)
    (edgeList : List edge) (vertexList : List vertex) (P : List Mat4) :
    Option (List ℕ × List edge × List vertex × List ℕ × ℕ) :=
  if tetMode = TM_FACE then
    let fl := filterFaces P (tetList.length / 4) faceList
    let el := makeEdgeList fl
    (makeTetList tetMode numPts fl el vertexList).map
      (fun r => (fl, el, vertexList, r.1, r.2))
  else if tetMode = TM_EDGE then
    let el := filterEdges P 0 edgeList
    (makeTetList tetMode numPts faceList el vertexList).map
      (fun r => (faceList, el, vertexList, r.1, r.2))
  else if tetMode = TM_VERTEX ∨ tetMode = TM_VFACE then
    let vl := filterVerts P 0 vertexList
    (makeTetList tetMode numPts faceList edgeList vl).map
      (fun r => (faceList, edgeList, vl, r.1, r.2))
  else
    (makeTetList tetMode numPts faceList edgeList vertexList).map
      (fun r => (faceList, edgeList, vertexList, r.1, r.2))

/-- rational 3-vectors, for the distance primitives -/
abbrev Vq : Type := ℚ × ℚ × ℚ

/-- componentwise difference -/
def subq (a b : Vq) : Vq := (a.1 - b.1, a.2.1 - b.2.1, a.2.2 - b.2.2)

/-- scalar multiple -/
def smulq (t : ℚ) (a : Vq) : Vq := (t * a.1, t * a.2.1, t * a.2.2)

/-- dot product -/
def dotq (a b : Vq) : ℚ := a.1 * b.1 + a.2.1 * b.2.1 + a.2.2 * b.2.2

/-- cross product -/
def crossq (a b : Vq) : Vq :=
  (a.2.1 * b.2.2 - a.2.2 * b.2.1, a.2.2 * b.1 - a.1 * b.2.2, a.1 * b.2.1 - a.2.1 * b.1)

/-- squared norm -/
def sqq (a : Vq) : ℚ := a.1 * a.1 + a.2.1 * a.2.1 + a.2.2 * a.2.2

/-- distPtLin from tetrise.h: squared distance between segment ab and
point p; the source divides by (a-b).squaredNorm() with no guard, so the
a = b input divides by zero (NaN on doubles), modelled as none -/
def distPtLin (p a b : Vq) : Option ℚ :=
  if sqq (subq a b) = 0 then none
  else
    let t := dotq (subq a b) (subq p b) / sqq (subq a b)
    if t > 1 then some (sqq (subq a p))
    else if t < 0 then some (sqq (subq b p))
    else some (sqq (subq (smulq t (subq a b)) (subq p b)))

/-- minimum on Option ℚ where none stands for HUGE_VAL -/
def dmin (x y : Option ℚ) : Option ℚ :=
  match x, y with
  | none, y => y
  | x, none => x
  | some a, some b => some (min a b)

/-- distPtTri from tetrise.h: one-sided squared distance between triangle
abc and point p.  The outer Option is the failure monad (division by zero
inside distPtLin, inversion of a singular 3x3 matrix); the inner none is
the HUGE_VAL sentinel for points in the outer half-space.  The 3x3 system
A v = p - a (columns b-a, c-a, n-a as in the source) is solved exactly by
Cramer's rule, which agrees with Eigen's inverse() when A is invertible -/
def distPtTri (p a b c : Vq) : Option (Option ℚ) :=
  let n := crossq (subq b a) (subq c a)
  if sqq n < EPSILON then some (some (sqq (subq p a)))
  else
    let k := dotq n (subq a p)
    if k < 0 then some none
    else
      match distPtLin p a b, distPtLin p b c, distPtLin p c a with
      | some s0, some s1, some s2 =>
          let cb := subq b a
          let cc := subq c a
          let cn := subq n a
          let dA := det3 cb.1 cc.1 cn.1 cb.2.1 cc.2.1 cn.2.1 cb.2.2 cc.2.2 cn.2.2
          if dA = 0 then none
          else
            let pa := subq p a
            let v0 := det3 pa.1 cc.1 cn.1 pa.2.1 cc.2.1 cn.2.1 pa.2.2 cc.2.2 cn.2.2 / dA
            let v1 := det3 cb.1 pa.1 cn.1 cb.2.1 pa.2.1 cn.2.1 cb.2.2 pa.2.2 cn.2.2 / dA
            let s3 : Option ℚ := if v0 > 0 ∧ v1 > 0 ∧ v0 + v1 < 1 then some (k * k) else none
            some (dmin (dmin (dmin (some s0) (some s1)) (some s2)) s3)
      | _, _, _ => none

/-- total number of wedges (fan pairs) over a vertex list -/
def totalWedges : List vertex → ℕ
  | [] => 0
  | v :: vs => v.connectedTriangles.length / 2 + totalWedges vs

/-
  makeAdjacencyList.  Every mutation the source performs on
  adjacencyList is of the form adjacencyList[a].push_back(b); we record
  these push operations as pairs (a, b) in source order and then replay
  them onto the total map Nat -> List Nat that models the vector of
  vectors (the source allocates tetList.size()/4 slots; out-of-range
  accesses are undefined behaviour there and simply extra slots here).
-/

/-- replay of push_back operations: (a, b) appends b to slot a -/
def applyOps (m : ℕ → List ℕ) : List (ℕ × ℕ) → ℕ → List ℕ
  | [], x => m x
  | op :: ops, x =>
      applyOps (fun y => if y = op.1 then m y ++ [op.2] else m y) ops x

/-- push operations of the TM_EDGE branch; fs models the per-face
faceShareList of previously seen edge-tetrahedra, i the edge index -/
def edgeAdjOps (fs : ℕ → List ℕ) (i : ℕ) : List edge → List (ℕ × ℕ)
  | [] => []
  | e :: es =>
      let sh0 := (fs e.f0).flatMap (fun x => [(2 * i, x), (x, 2 * i)])
      let sh1 := (fs e.f1).flatMap (fun x => [(2 * i + 1, x), (x, 2 * i + 1)])
      let fs1 := fun y => if y = e.f0 then fs y ++ [2 * i] else fs y
      let fs2 := fun y => if y = e.f1 then fs1 y ++ [2 * i + 1] else fs1 y
      (2 * i, 2 * i + 1) :: (2 * i + 1, 2 * i) :: sh0 ++ sh1 ++ edgeAdjOps fs2 (i + 1) es

/-- one lookup of the shared-edge map in the TM_VERTEX / TM_VFACE branch:
if the directed pair is new it is recorded with the current wedge index,
otherwise a mutual push with the recorded wedge is emitted -/
def stepPair (m : List ((ℕ × ℕ) × ℕ)) (pa : ℕ × ℕ) (cur : ℕ) :
    List (ℕ × ℕ) × List ((ℕ × ℕ) × ℕ) :=
  match lookupPair m pa with
  | none => ([], (pa, cur) :: m)
  | some x => ([(cur, x), (x, cur)], m)

/-- push operations for the wedges of one vertex: the fan-local clique row
for the current wedge followed by the two shared-edge map lookups -/
def wAdjOps (vIdx : ℕ) (adj : List ℕ) :
    List ((ℕ × ℕ) × ℕ) → ℕ → List (ℕ × ℕ) → List (ℕ × ℕ) × List ((ℕ × ℕ) × ℕ)
  | m, _, [] => ([], m)
  | m, cur, (s, t) :: ws =>
      let r1 := stepPair m (vIdx, s) cur
      let r2 := stepPair r1.2 (t, vIdx) cur
      let rest := wAdjOps vIdx adj r2.2 (cur + 1) ws
      (adj.map (fun b => (cur, b)) ++ r1.1 ++ r2.1 ++ rest.1, rest.2)

/-- push operations of the TM_VERTEX / TM_VFACE branch; the shared-edge
map m and the wedge counter cur persist across vertices -/
def vAdjOps : List ((ℕ × ℕ) × ℕ) → ℕ → List vertex → List (ℕ × ℕ)
  | _, _, [] => []
  | m, cur, v :: vs =>
      let k := v.connectedTriangles.length / 2
      let adj := (List.range k).map (fun j => cur + j)
      let r := wAdjOps v.index adj m cur (wedges v.connectedTriangles)
      r.1 ++ vAdjOps r.2 (cur + k) vs

/-- the push operations of makeAdjacencyList in source order -/
def adjOps (tetMode : ℕ) (tetList : List ℕ) (edgeList : List edge)
    (vertexList : List vertex) : List (ℕ × ℕ) :=
  if tetMode = TM_FACE then
    edgeList.flatMap (fun e => [(e.f0, e.f1), (e.f1, e.f0)])
  else if tetMode = TM_EDGE then
    edgeAdjOps (fun _ => []) 0 edgeList
  else if tetMode = TM_VERTEX ∨ tetMode = TM_VFACE then
    vAdjOps [] 0 vertexList
  else
    []

/-- makeAdjacencyList from tetrise.h, as the map from tetrahedron index to
its neighbour list -/
def makeAdjacencyList (tetMode : ℕ) (tetList : List ℕ) (edgeList : List edge)
    (vertexList : List vertex) : ℕ → List ℕ :=
  applyOps (fun _ => []) (adjOps tetMode tetList edgeList vertexList)

/-
  Frame builders.  These use Eigen's normalized(), i.e. real square
  roots, so they are modelled over the reals.
-/

/-- real 3-vectors -/
abbrev Vec3 : Type := ℝ × ℝ × ℝ

/-- zero vector -/
def v3zero : Vec3 := (0, 0, 0)

/-- componentwise sum -/
def addv (a b : Vec3) : Vec3 := (a.1 + b.1, a.2.1 + b.2.1, a.2.2 + b.2.2)

/-- componentwise difference -/
def subv (a b : Vec3) : Vec3 := (a.1 - b.1, a.2.1 - b.2.1, a.2.2 - b.2.2)

/-- scalar multiple -/
def smulv (t : ℝ) (a : Vec3) : Vec3 := (t * a.1, t * a.2.1, t * a.2.2)

/-- cross product -/
def crossv (a b : Vec3) : Vec3 :=
  (a.2.1 * b.2.2 - a.2.2 * b.2.1, a.2.2 * b.1 - a.1 * b.2.2, a.1 * b.2.1 - a.2.1 * b.1)

/-- squared norm -/
noncomputable def sqnormv (a : Vec3) : ℝ := a.1 ^ 2 + a.2.1 ^ 2 + a.2.2 ^ 2

/-- Eigen's normalized(): the vector divided by its euclidean norm -/
noncomputable def normalizedv (v : Vec3) : Vec3 :=
  smulv (Real.sqrt (sqnormv v))⁻¹ v

/-- a 4x4 matrix of reals stored as four rows -/
abbrev Mat4R : Type := (ℝ × ℝ × ℝ × ℝ) × (ℝ × ℝ × ℝ × ℝ) × (ℝ × ℝ × ℝ × ℝ) × (ℝ × ℝ × ℝ × ℝ)

/-- default real matrix for out-of-range list reads -/
def mat0R : Mat4R := ((0, 0, 0, 0), (0, 0, 0, 0), (0, 0, 0, 0), (0, 0, 0, 0))

/-- mat from tetrise.h: rows are the three corners and the apex, each
extended by a constant 1 -/
def mat (p0 p1 p2 c : Vec3) : Mat4R :=
  ((p0.1, p0.2.1, p0.2.2, 1), (p1.1, p1.2.1, p1.2.2, 1),
   (p2.1, p2.2.1, p2.2.2, 1), (c.1, c.2.1, c.2.2, 1))

/-- one TM_FACE / TM_VFACE frame of tetMatrix: apex position is the unit
face normal added to p0 -/
noncomputable def faceTetMat (pts : ℕ → Vec3) (t : ℕ × ℕ × ℕ × ℕ) : Mat4R :=
  let p0 := pts t.1
  let p1 := pts t.2.1
  let p2 := pts t.2.2.1
  let q := normalizedv (crossv (subv p1 p0) (subv p2 p0))
  mat p0 p1 p2 (addv q p0)

/-- face normal of face f of the flat face list -/
noncomputable def faceNormal (pts : ℕ → Vec3) (fl : List ℕ) (f : ℕ) : Vec3 :=
  normalizedv (crossv
    (subv (pts (fl.getD (3 * f + 1) 0)) (pts (fl.getD (3 * f) 0)))
    (subv (pts (fl.getD (3 * f + 2) 0)) (pts (fl.getD (3 * f) 0))))

/-- TM_EDGE frames of tetMatrix: the shared apex is the edge midpoint plus
the normalised sum of the two adjacent face normals -/
noncomputable def edgeTetMats (pts : ℕ → Vec3) (fl tl : List ℕ) :
    ℕ → List edge → List Mat4R
  | _, [] => []
  | i, e :: es =>
      let c := addv (smulv (1 / 2) (addv (pts e.v0) (pts e.v1)))
        (normalizedv (addv (faceNormal pts fl e.f0) (faceNormal pts fl e.f1)))
      let m0 := mat (pts (tl.getD (8 * i) 0)) (pts (tl.getD (8 * i + 1) 0))
        (pts (tl.getD (8 * i + 2) 0)) c
      let m1 := mat (pts (tl.getD (8 * i + 4) 0)) (pts (tl.getD (8 * i + 5) 0))
        (pts (tl.getD (8 * i + 6) 0)) c
      m0 :: m1 :: edgeTetMats pts fl tl (i + 1) es

/-- the apex of a vertex in TM_VERTEX mode: the vertex position plus the
normalised sum of the normalised wedge cross products, accumulated in fan
order as in the source -/
noncomputable def vertApex (pts : ℕ → Vec3) (p0 : Vec3) (ws : List (ℕ × ℕ)) : Vec3 :=
  addv p0 (normalizedv (ws.foldl
    (fun acc st =>
      addv acc (normalizedv (crossv (subv (pts st.1) p0) (subv (pts st.2) p0))))
    v3zero))

/-- TM_VERTEX frames of tetMatrix: one frame per wedge, sharing the apex -/
noncomputable def vertTetMats (pts : ℕ → Vec3) : List vertex → List Mat4R
  | [] => []
  | v :: vs =>
      let p0 := pts v.index
      let c := vertApex pts p0 (wedges v.connectedTriangles)
      (wedges v.connectedTriangles).map (fun st => mat p0 (pts st.1) (pts st.2) c)
        ++ vertTetMats pts vs

/-- tetMatrix from tetrise.h: the plain frame builder -/
noncomputable def tetMatrix (tetMode : ℕ) (pts : ℕ → Vec3) (tetList faceList : List ℕ)
    (edgeList : List edge) (vertexList : List vertex) : List Mat4R :=
  if tetMode = TM_FACE ∨ tetMode = TM_VFACE then
    (tetras tetList).map (faceTetMat pts)
  else if tetMode = TM_EDGE then
    edgeTetMats pts faceList tetList 0 edgeList
  else if tetMode = TM_VERTEX then
    vertTetMats pts vertexList
  else
    []

/-- one TM_VERTEX frame of tetMatrixNormalised: the two fan neighbours are
moved to unit distance from p0 before building the matrix -/
noncomputable def vertWedgeMatN (pts : ℕ → Vec3) (p0 c : Vec3) (st : ℕ × ℕ) : Mat4R :=
  mat p0 (addv p0 (normalizedv (subv (pts st.1) p0)))
    (addv p0 (normalizedv (subv (pts st.2) p0))) c

/-- TM_VERTEX frames of tetMatrixNormalised (apex as in the plain builder) -/
noncomputable def vertTetMatsN (pts : ℕ → Vec3) : List vertex → List Mat4R
  | [] => []
  | v :: vs =>
      let p0 := pts v.index
      let c := vertApex pts p0 (wedges v.connectedTriangles)
      (wedges v.connectedTriangles).map (vertWedgeMatN pts p0 c)
        ++ vertTetMatsN pts vs

/-- one TM_VFACE frame of tetMatrixNormalised: both edge vectors are
rescaled to unit length, then the normal apex is rebuilt from them -/
noncomputable def vfaceTetMatN (pts : ℕ → Vec3) (t : ℕ × ℕ × ℕ × ℕ) : Mat4R :=
  let p0 := pts t.1
  let p1 := addv p0 (normalizedv (subv (pts t.2.1) p0))
  let p2 := addv p0 (normalizedv (subv (pts t.2.2.1) p0))
  let q := normalizedv (crossv (subv p1 p0) (subv p2 p0))
  mat p0 p1 p2 (addv q p0)

/-- tetMatrixNormalised from tetrise.h: for TM_FACE and TM_EDGE it simply
calls tetMatrix, for TM_VERTEX and TM_VFACE it rescales the two non-apex
edge vectors to unit length -/
noncomputable def tetMatrixNormalised (tetMode : ℕ) (pts : ℕ → Vec3)
    (tetList faceList : List ℕ) (edgeList : List edge) (vertexList : List vertex) :
    List Mat4R :=
  if tetMode = TM_FACE ∨ tetMode = TM_EDGE then
    tetMatrix tetMode pts tetList faceList edgeList vertexList
  else if tetMode = TM_VERTEX then
    vertTetMatsN pts vertexList
  else if tetMode = TM_VFACE then
    (tetras tetList).map (vfaceTetMatN pts)
  else
    []

/-- the vector from row 0 to row 1 of a frame matrix (the p1 - p0 edge) -/
def edge1 (m : Mat4R) : Vec3 :=
  (m.2.1.1 - m.1.1, m.2.1.2.1 - m.1.2.1, m.2.1.2.2.1 - m.1.2.2.1)

/-- the vector from row 0 to row 2 of a frame matrix (the p2 - p0 edge) -/
def edge2 (m : Mat4R) : Vec3 :=
  (m.2.2.1.1 - m.1.1, m.2.2.1.2.1 - m.1.2.1, m.2.2.1.2.2.1 - m.1.2.2.1)

/-- Modelled from the spec: the ghost-point count each mode is documented
to introduce (face count, edge count, vertex count, wedge count) -/
def specGhostCount (tetMode : ℕ) (faceList : List ℕ)
    (edgeList : List edge) (vertexList : List vertex) : ℕ :=
  if tetMode = TM_FACE then faceList.length / 3
  else if tetMode = TM_EDGE then edgeList.length
  else if tetMode = TM_VERTEX then vertexList.length
  else if tetMode = TM_VFACE then totalWedges vertexList
  else 0

/-
  Lemmas and claim theorems.
-/

theorem wedges_length : ∀ l : List ℕ, (wedges l).length = l.length / 2 := by
  intro l
  induction l using wedges.induct with
  | case1 a b rest ih => simp [wedges, ih]; omega
  | case2 l h =>
    match l, h with
    | [], _ => simp [wedges]
    | [a], _ => simp [wedges]
    | a :: b :: r, h => exact absurd rfl (h a b r)

theorem faceTets_apex (numPts : ℕ) :
    ∀ (i : ℕ) (fl : List ℕ), ∀ t ∈ tetras (faceTets numPts i fl),
      numPts + i ≤ t.2.2.2 ∧ t.2.2.2 < numPts + i + fl.length / 3 := by
  intro i fl
  induction i, fl using faceTets.induct numPts with
  | case1 i a b c rest ih =>
    intro t ht
    have hlen : (a :: b :: c :: rest).length / 3 = rest.length / 3 + 1 := by
      simp [List.length_cons]; omega
    simp only [faceTets, tetras] at ht
    rcases List.mem_cons.mp ht with h | h
    · subst h
      constructor
      · show numPts + i ≤ i + numPts
        omega
      · show i + numPts < numPts + i + (a :: b :: c :: rest).length / 3
        omega
    · have := ih t h
      omega
  | case2 l i h =>
    match l, h with
    | [], _ => intro t ht; simp [faceTets, tetras] at ht
    | [a], _ => intro t ht; simp [faceTets, tetras] at ht
    | [a, b], _ => intro t ht; simp [faceTets, tetras] at ht
    | a :: b :: c :: r, h => exact absurd rfl (h a b c r)

theorem edgeFaceTet_apex (fl : List ℕ) (e : edge) (f apex : ℕ) (t : ℕ × ℕ × ℕ × ℕ)
    (h : edgeFaceTet fl e f apex = some t) : t.2.2.2 = apex := by
  unfold edgeFaceTet at h
  cases hk : findThird fl f e.v0 e.v1 with
  | none => rw [hk] at h; simp at h
  | some k => rw [hk] at h; simp at h; rw [← h]

theorem edgeTets_apex (numPts : ℕ) (fl : List ℕ) :
    ∀ (es : List edge) (i : ℕ) (l : List ℕ), edgeTets numPts fl i es = some l →
      ∀ t ∈ tetras l, numPts + i ≤ t.2.2.2 ∧ t.2.2.2 < numPts + i + es.length := by
  intro es
  induction es with
  | nil =>
    intro i l h t ht
    simp [edgeTets] at h
    subst h
    simp [tetras] at ht
  | cons e es ih =>
    intro i l h t ht
    simp only [edgeTets, bind, Option.bind_eq_some, Option.pure_def,
      Option.some.injEq] at h
    obtain ⟨t0, h0, t1, h1, rest, hr, hl⟩ := h
    subst hl
    simp only [tetras] at ht
    rcases List.mem_cons.mp ht with hh | ht2
    · have ha := edgeFaceTet_apex fl e e.f0 (i + numPts) t0 h0
      have h222 : t.2.2.2 = i + numPts := by rw [hh]; exact ha
      simp only [List.length_cons, h222]
      omega
    rcases List.mem_cons.mp ht2 with hh | ht3
    · have ha := edgeFaceTet_apex fl e e.f1 (i + numPts) t1 h1
      have h222 : t.2.2.2 = i + numPts := by rw [hh]; exact ha
      simp only [List.length_cons, h222]
      omega
    · have := ih (i + 1) rest hr t ht3
      simp only [List.length_cons]
      omega

theorem wedgeTetsV_tetras (a v : ℕ) :
    ∀ (ws : List (ℕ × ℕ)) (L : List ℕ),
      tetras (wedgeTetsV a v ws ++ L)
        = ws.map (fun st => (v, st.1, st.2, a)) ++ tetras L := by
  intro ws
  induction ws with
  | nil => intro L; simp [wedgeTetsV]
  | cons st ws ih =>
    intro L
    cases st with
    | mk s t => simp [wedgeTetsV, tetras, ih]

theorem vertTets_apex (numPts : ℕ) :
    ∀ (vl : List vertex) (i : ℕ), ∀ t ∈ tetras (vertTets numPts i vl),
      numPts + i ≤ t.2.2.2 ∧ t.2.2.2 < numPts + i + vl.length := by
  intro vl
  induction vl with
  | nil => intro i t ht; simp [vertTets, tetras] at ht
  | cons v vs ih =>
    intro i t ht
    rw [vertTets, wedgeTetsV_tetras] at ht
    rcases List.mem_append.mp ht with h | h
    · rcases List.mem_map.mp h with ⟨st, _, hst⟩
      subst hst
      simp only [List.length_cons]
      omega
    · have := ih (i + 1) t h
      simp [List.length_cons]
      omega

theorem wedgeTetsF_tetras (numPts v : ℕ) :
    ∀ (ws : List (ℕ × ℕ)) (cur : ℕ) (L : List ℕ), ∀ t ∈ tetras (wedgeTetsF numPts v cur ws ++ L),
      (numPts + cur ≤ t.2.2.2 ∧ t.2.2.2 < numPts + cur + ws.length) ∨ t ∈ tetras L := by
  intro ws
  induction ws with
  | nil => intro cur L t ht; right; simpa [wedgeTetsF] using ht
  | cons st ws ih =>
    intro cur L t ht
    cases st with
    | mk s t2 =>
      simp only [wedgeTetsF, List.cons_append, tetras] at ht
      rcases List.mem_cons.mp ht with hh | ht2
      · subst hh; left; simp only [List.length_cons]; omega
      · rcases ih (cur + 1) L t ht2 with hin | hout
        · left; simp only [List.length_cons]; omega
        · right; exact hout

theorem wedgeTetsF_length (numPts v : ℕ) :
    ∀ (ws : List (ℕ × ℕ)) (cur : ℕ), (wedgeTetsF numPts v cur ws).length = 4 * ws.length := by
  intro ws
  induction ws with
  | nil => intro cur; simp [wedgeTetsF]
  | cons st ws ih =>
    intro cur
    cases st with
    | mk s t => simp [wedgeTetsF, ih]; omega

theorem vfaceTets_length (numPts : ℕ) :
    ∀ (vl : List vertex) (cur : ℕ), (vfaceTets numPts cur vl).length = 4 * totalWedges vl := by
  intro vl
  induction vl with
  | nil => intro cur; simp [vfaceTets, totalWedges]
  | cons v vs ih =>
    intro cur
    simp [vfaceTets, totalWedges, wedgeTetsF_length, wedges_length, ih]
    omega

theorem vfaceTets_apex (numPts : ℕ) :
    ∀ (vl : List vertex) (cur : ℕ), ∀ t ∈ tetras (vfaceTets numPts cur vl),
      numPts + cur ≤ t.2.2.2 ∧ t.2.2.2 < numPts + cur + totalWedges vl := by
  intro vl
  induction vl with
  | nil => intro cur t ht; simp [vfaceTets, tetras] at ht
  | cons v vs ih =>
    intro cur t ht
    rw [vfaceTets] at ht
    rcases wedgeTetsF_tetras numPts v.index (wedges v.connectedTriangles) cur _ t ht with
      hin | hout
    · rw [wedges_length] at hin
      simp [totalWedges]
      omega
    · have := ih (cur + v.connectedTriangles.length / 2) t hout
      simp [totalWedges]
      omega

/-- C1: for each of the four modes and every well-formed input (one on
which makeTetList succeeds), the returned total point count equals
numRealPoints plus the mode's ghost count (face count, edge count, vertex
count, wedge count respectively), and the apex stored at position 3 of
every emitted tetrahedron lies in the half-open range
[numRealPoints, totalPointCount). -/
theorem C1_makeTetList_dim_and_apex (tetMode numPts : ℕ) (fl : List ℕ)
    (el : List edge) (vl : List vertex) (tl : List ℕ) (dim : ℕ)
    (hmode : tetMode = TM_FACE ∨ tetMode = TM_EDGE ∨ tetMode = TM_VERTEX ∨ tetMode = TM_VFACE)
    (h : makeTetList tetMode numPts fl el vl = some (tl, dim)) :
    dim = numPts + specGhostCount tetMode fl el vl ∧
      ∀ t ∈ tetras tl, numPts ≤ t.2.2.2 ∧ t.2.2.2 < dim := by
  rcases hmode with hm | hm | hm | hm <;> subst hm
  · rw [makeTetList, if_pos rfl] at h
    simp only [Option.some.injEq, Prod.mk.injEq] at h
    obtain ⟨htl, hdim⟩ := h
    subst htl
    constructor
    · rw [← hdim, specGhostCount, if_pos rfl]; omega
    · intro t ht
      have := faceTets_apex numPts 0 fl t ht
      omega
  · rw [makeTetList, if_neg (by norm_num [TM_EDGE, TM_FACE]), if_pos rfl] at h
    cases he : edgeTets numPts fl 0 el with
    | none => rw [he] at h; simp at h
    | some l =>
      rw [he] at h
      simp only [Option.map_some', Option.some.injEq, Prod.mk.injEq] at h
      obtain ⟨htl, hdim⟩ := h
      subst htl
      constructor
      · rw [← hdim, specGhostCount, if_neg (by norm_num [TM_EDGE, TM_FACE]), if_pos rfl]
      · intro t ht
        have := edgeTets_apex numPts fl el 0 l he t ht
        omega
  · rw [makeTetList, if_neg (by norm_num [TM_VERTEX, TM_FACE]),
      if_neg (by norm_num [TM_VERTEX, TM_EDGE]), if_pos rfl] at h
    simp only [Option.some.injEq, Prod.mk.injEq] at h
    obtain ⟨htl, hdim⟩ := h
    subst htl
    constructor
    · rw [← hdim, specGhostCount, if_neg (by norm_num [TM_VERTEX, TM_FACE]),
        if_neg (by norm_num [TM_VERTEX, TM_EDGE]), if_pos rfl]
    · intro t ht
      have := vertTets_apex numPts vl 0 t ht
      omega
  · rw [makeTetList, if_neg (by norm_num [TM_VFACE, TM_FACE]),
      if_neg (by norm_num [TM_VFACE, TM_EDGE]),
      if_neg (by norm_num [TM_VFACE, TM_VERTEX]), if_pos rfl] at h
    simp only [Option.some.injEq, Prod.mk.injEq] at h
    obtain ⟨htl, hdim⟩ := h
    subst htl
    have hlen : (vfaceTets numPts 0 vl).length = 4 * totalWedges vl :=
      vfaceTets_length numPts vl 0
    constructor
    · rw [← hdim, specGhostCount, if_neg (by norm_num [TM_VFACE, TM_FACE]),
        if_neg (by norm_num [TM_VFACE, TM_EDGE]),
        if_neg (by norm_num [TM_VFACE, TM_VERTEX]), if_pos rfl, hlen]
      omega
    · intro t ht
      have := vfaceTets_apex numPts vl 0 t ht
      omega

/-- witness for C1 at a concrete per-face input -/
theorem C1_witness :
    makeTetList TM_FACE 3 [0, 1, 2] [] [] = some ([0, 1, 2, 3], 4) ∧
      (4 = 3 + specGhostCount TM_FACE [0, 1, 2] [] [] ∧
        ∀ t ∈ tetras [0, 1, 2, 3], 3 ≤ t.2.2.2 ∧ t.2.2.2 < 4) :=
  ⟨by decide,
    C1_makeTetList_dim_and_apex TM_FACE 3 [0, 1, 2] [] [] [0, 1, 2, 3] 4
      (Or.inl rfl) (by decide)⟩

theorem wedgeTetsV_length (a v : ℕ) :
    ∀ ws : List (ℕ × ℕ), (wedgeTetsV a v ws).length = 4 * ws.length := by
  intro ws
  induction ws with
  | nil => simp [wedgeTetsV]
  | cons st ws ih =>
    cases st with
    | mk s t => simp [wedgeTetsV, ih]; omega

/-- C9 counterexample: in per-vertex mode a vertex whose fan holds exactly
one neighbour pair contributes one tetrahedron, not zero: with numPts = 10
and the single vertex 0 with fan [1, 2], makeTetList returns the single
tetrahedron [0, 1, 2, 10]. -/
theorem C9_counterexample :
    makeTetList TM_VERTEX 10 [] [] [⟨0, [1, 2]⟩] = some ([0, 1, 2, 10], 11) ∧
      ([0, 1, 2, 10] : List ℕ).length / 4 = 1 :=
  ⟨by decide, by decide⟩

/-- C9 (amended): in per-vertex and vface modes each vertex contributes
exactly one tetrahedron per neighbour pair of its fan,
4 * (fan length / 2) list entries; in particular a fan with zero pairs
(fewer than two entries) contributes zero tetrahedra and a fan with one
pair contributes one. -/
theorem C9_vertex_tet_count (numPts i cur : ℕ) (v : vertex) :
    (wedgeTetsV (numPts + i) v.index (wedges v.connectedTriangles)).length
        = 4 * (v.connectedTriangles.length / 2) ∧
      (wedgeTetsF numPts v.index cur (wedges v.connectedTriangles)).length
        = 4 * (v.connectedTriangles.length / 2) := by
  constructor
  · rw [wedgeTetsV_length, wedges_length]
  · rw [wedgeTetsF_length, wedges_length]

theorem addAt_apply (w : ℚ) (x : ℕ) (acc : ℕ → ℚ) (y : ℕ) :
    addAt w x acc y = acc y + if y = x then w else 0 := by
  unfold addAt
  split <;> simp

theorem count_cons_nat (a b : ℕ) (l : List ℕ) :
    List.count a (b :: l) = List.count a l + if a = b then 1 else 0 := by
  rw [List.count_cons]
  congr 1
  by_cases h : a = b
  · simp [h]
  · simp [beq_iff_eq, h, Ne.symm h]

theorem scatterFace_const (c : ℚ) : ∀ (tl : List ℕ) (acc : ℕ → ℚ) (p : ℕ),
    scatterFace acc tl (weightFace (fun _ => c) tl) p
      = acc p + (List.count p (cornerList tl) : ℚ) * c := by
  intro tl
  induction tl using cornerList.induct with
  | case1 p0 p1 p2 ap rest ih =>
    intro acc p
    have hw : (c + c + c) / 3 = c := by ring
    simp only [weightFace, scatterFace, hw]
    rw [ih]
    simp only [addAt_apply, cornerList, count_cons_nat]
    push_cast
    split_ifs <;> ring
  | case2 tl h =>
    intro acc p
    match tl, h with
    | [], _ => simp [scatterFace, weightFace, cornerList]
    | [a], _ => simp [scatterFace, weightFace, cornerList]
    | [a, b], _ => simp [scatterFace, weightFace, cornerList]
    | [a, b, c'], _ => simp [scatterFace, weightFace, cornerList]
    | a :: b :: c' :: d :: r, h => exact absurd rfl (h a b c' d r)

theorem cornerList_faceTets (numPts : ℕ) :
    ∀ (i : ℕ) (fl : List ℕ), cornerList (faceTets numPts i fl) = flatTriples fl := by
  intro i fl
  induction i, fl using faceTets.induct numPts with
  | case1 i a b c rest ih => simp [faceTets, cornerList, flatTriples, ih]
  | case2 l i h =>
    match l, h with
    | [], _ => simp [faceTets, cornerList, flatTriples]
    | [a], _ => simp [faceTets, cornerList, flatTriples]
    | [a, b], _ => simp [faceTets, cornerList, flatTriples]
    | a :: b :: c :: r, h => exact absurd rfl (h a b c r)

/-- C8 (amended): in per-face mode, composing makeWeightList with
makePtsWeightList on a constant point-weight field c yields at every
point the weight c multiplied by the point's incidence count (its number
of occurrences among the tetrahedron corner slots, which for the
tetrahedron list built by the per-face tetrahedralizer are exactly the
face-list slots) — not 3 times that value. -/
theorem C8_roundtrip_per_face (numPts : ℕ) (tl fl : List ℕ) (el : List edge)
    (vl : List vertex) (c : ℚ) (p : ℕ) :
    makePtsWeightList TM_FACE numPts tl fl el vl
        (makeWeightList TM_FACE tl fl el vl (fun _ => c)) p
        = (List.count p (cornerList tl) : ℚ) * c ∧
      cornerList (faceTets numPts 0 fl) = flatTriples fl := by
  constructor
  · rw [makePtsWeightList, if_pos rfl, makeWeightList, if_pos rfl, scatterFace_const]
    simp
  · exact cornerList_faceTets numPts 0 fl

/-- C8 counterexample: on the closed tetrahedron surface (four faces,
constant weight 1) the per-face round trip yields 3 at point 0 (incidence
3 times weight 1), not 3 x 1 x 3 = 9 as the claim states. -/
theorem C8_counterexample :
    makeTetList TM_FACE 4 [0, 1, 2, 0, 2, 3, 0, 3, 1, 1, 3, 2] [] []
        = some ([0, 1, 2, 4, 0, 2, 3, 5, 0, 3, 1, 6, 1, 3, 2, 7], 8) ∧
      List.count 0 (cornerList [0, 1, 2, 4, 0, 2, 3, 5, 0, 3, 1, 6, 1, 3, 2, 7]) = 3 ∧
      makePtsWeightList TM_FACE 4 [0, 1, 2, 4, 0, 2, 3, 5, 0, 3, 1, 6, 1, 3, 2, 7]
        [0, 1, 2, 0, 2, 3, 0, 3, 1, 1, 3, 2] [] []
        (makeWeightList TM_FACE [0, 1, 2, 4, 0, 2, 3, 5, 0, 3, 1, 6, 1, 3, 2, 7]
          [0, 1, 2, 0, 2, 3, 0, 3, 1, 1, 3, 2] [] [] (fun _ => 1)) 0 = 3 ∧
      (3 : ℚ) ≠ 3 * 1 * 3 := by
  refine ⟨by decide, by decide, ?_, by norm_num⟩
  rw [makePtsWeightList, if_pos rfl, makeWeightList, if_pos rfl, scatterFace_const]
  have hc : List.count 0 (cornerList [0, 1, 2, 4, 0, 2, 3, 5, 0, 3, 1, 6, 1, 3, 2, 7]) = 3 := by
    decide
  rw [hc]
  norm_num

/-- each vertex paired with the index of its first wedge frame (the value
of the running counter cur when removeDegenerate reaches it) -/
def vertOffsets : ℕ → List vertex → List (ℕ × vertex)
  | _, [] => []
  | cur, v :: vs => (cur, v) :: vertOffsets (cur + v.connectedTriangles.length / 2) vs

/-- an identity-like 4x4 rational matrix with determinant 1 -/
def I4q : Mat4 := ((1, 0, 0, 0), (0, 1, 0, 0), (0, 0, 1, 0), (0, 0, 0, 1))

theorem filterEdges_enum (P : List Mat4) : ∀ (el : List edge) (i : ℕ),
    filterEdges P i el = ((List.enumFrom i el).filter (fun ie =>
      goodDet (P.getD (2 * ie.1) mat0) && goodDet (P.getD (2 * ie.1 + 1) mat0))).map
        Prod.snd := by
  intro el
  induction el with
  | nil => intro i; simp [filterEdges]
  | cons e es ih =>
    intro i
    simp only [filterEdges, List.enumFrom, List.filter_cons, Bool.and_eq_true]
    by_cases h1 : goodDet (P.getD (2 * i) mat0) = true
    · by_cases h2 : goodDet (P.getD (2 * i + 1) mat0) = true
      · rw [if_pos ⟨h1, h2⟩, if_pos ⟨h1, h2⟩, List.map_cons, ih]
      · rw [if_neg (by tauto), if_neg (by tauto), ih]
    · rw [if_neg (by tauto), if_neg (by tauto), ih]

theorem filterVerts_offsets (P : List Mat4) : ∀ (vl : List vertex) (cur : ℕ),
    filterVerts P cur vl = ((vertOffsets cur vl).filter (fun cv =>
      (List.range (cv.2.connectedTriangles.length / 2)).all
        (fun j => goodDet (P.getD (cv.1 + j) mat0)))).map Prod.snd := by
  intro vl
  induction vl with
  | nil => intro cur; simp [filterVerts, vertOffsets]
  | cons v vs ih =>
    intro cur
    simp only [filterVerts, vertOffsets, List.filter_cons]
    by_cases h : (List.range (v.connectedTriangles.length / 2)).all
        (fun j => goodDet (P.getD (cur + j) mat0)) = true
    · rw [if_pos h, if_pos h, List.map_cons, ih]
    · rw [if_neg h, if_neg h, ih]

/-- C2 (amended): removeDegenerate keeps an element only when it is fully
non-degenerate: in per-edge mode an edge survives exactly when both of
its two frames have determinant magnitude above the threshold (so an edge
with one degenerate tetrahedron is dropped), and in per-vertex / vface
modes a vertex survives exactly when every one of its wedge frames is
non-degenerate (one degenerate wedge drops the whole vertex). -/
theorem C2_removeDegenerate_policy (numPts : ℕ) (tl fl : List ℕ) (el : List edge)
    (vl : List vertex) (P : List Mat4) :
    (∀ r, removeDegenerate TM_EDGE numPts tl fl el vl P = some r →
      r.2.1 = (el.enum.filter (fun ie =>
        goodDet (P.getD (2 * ie.1) mat0)
          && goodDet (P.getD (2 * ie.1 + 1) mat0))).map Prod.snd) ∧
    (∀ tetMode r, tetMode = TM_VERTEX ∨ tetMode = TM_VFACE →
      removeDegenerate tetMode numPts tl fl el vl P = some r →
      r.2.2.1 = ((vertOffsets 0 vl).filter (fun cv =>
        (List.range (cv.2.connectedTriangles.length / 2)).all
          (fun j => goodDet (P.getD (cv.1 + j) mat0)))).map Prod.snd) := by
  constructor
  · intro r hr
    rw [removeDegenerate, if_neg (by norm_num [TM_EDGE, TM_FACE]), if_pos rfl] at hr
    cases hm : makeTetList TM_EDGE numPts fl (filterEdges P 0 el) vl with
    | none => simp only [hm, Option.map_none'] at hr; exact Option.noConfusion hr
    | some q =>
      simp only [hm, Option.map_some', Option.some.injEq] at hr
      rw [← hr]
      exact filterEdges_enum P el 0
  · intro tetMode r hmode hr
    have hv : filterVerts P 0 vl = ((vertOffsets 0 vl).filter (fun cv =>
        (List.range (cv.2.connectedTriangles.length / 2)).all
          (fun j => goodDet (P.getD (cv.1 + j) mat0)))).map Prod.snd :=
      filterVerts_offsets P vl 0
    rcases hmode with hm | hm <;> subst hm
    · rw [removeDegenerate, if_neg (by norm_num [TM_VERTEX, TM_FACE]),
        if_neg (by norm_num [TM_VERTEX, TM_EDGE]),
        if_pos (Or.inl rfl)] at hr
      cases hmm : makeTetList TM_VERTEX numPts fl el (filterVerts P 0 vl) with
      | none => simp only [hmm, Option.map_none'] at hr; exact Option.noConfusion hr
      | some q =>
        simp only [hmm, Option.map_some', Option.some.injEq] at hr
        rw [← hr]
        exact hv
    · rw [removeDegenerate, if_neg (by norm_num [TM_VFACE, TM_FACE]),
        if_neg (by norm_num [TM_VFACE, TM_EDGE]),
        if_pos (Or.inr rfl)] at hr
      cases hmm : makeTetList TM_VFACE numPts fl el (filterVerts P 0 vl) with
      | none => simp only [hmm, Option.map_none'] at hr; exact Option.noConfusion hr
      | some q =>
        simp only [hmm, Option.map_some', Option.some.injEq] at hr
        rw [← hr]
        exact hv

/-- C2 counterexample: an edge one of whose two frames is non-degenerate
(P = [mat0, I4q], determinants 0 and 1) is nevertheless dropped by
removeDegenerate, and a vertex with one non-degenerate wedge out of two
(P = [I4q, mat0]) is dropped with all its wedges, contradicting the
claim that partially degenerate elements are kept. -/
theorem C2_counterexample :
    goodDet I4q = true ∧ goodDet mat0 = false ∧
    removeDegenerate TM_EDGE 4 [] [0, 1, 2] [⟨0, 1, 0, 0⟩] [] [mat0, I4q]
        = some ([0, 1, 2], [], [], [], 4) ∧
    removeDegenerate TM_VERTEX 4 [] [] [] [⟨7, [1, 2, 3, 4]⟩] [I4q, mat0]
        = some ([], [], [], [], 4) := by
  have hgood : goodDet I4q = true := by
    norm_num [goodDet, I4q, det4, det3, EPSILON]
  have hbad : goodDet mat0 = false := by
    norm_num [goodDet, mat0, det4, det3, EPSILON]
  refine ⟨hgood, hbad, ?_, ?_⟩
  · rw [removeDegenerate, if_neg (by norm_num [TM_EDGE, TM_FACE]), if_pos rfl]
    have hfe : filterEdges [mat0, I4q] 0 [⟨0, 1, 0, 0⟩] = [] := by
      rw [filterEdges]
      simp [hbad, filterEdges]
    rw [hfe]
    norm_num [makeTetList, TM_EDGE, TM_FACE, edgeTets]
  · rw [removeDegenerate, if_neg (by norm_num [TM_VERTEX, TM_FACE]),
      if_neg (by norm_num [TM_VERTEX, TM_EDGE]), if_pos (Or.inl rfl)]
    have hfv : filterVerts [I4q, mat0] 0 [⟨7, [1, 2, 3, 4]⟩] = [] := by
      rw [filterVerts]
      simp [List.range, List.range.loop, hbad, filterVerts]
    rw [hfv]
    norm_num [makeTetList, TM_VERTEX, TM_FACE, TM_EDGE, vertTets]

/-- witness for C2 at a concrete per-edge input where the filter keeps the
edge (both frames non-degenerate) -/
theorem C2_witness :
    removeDegenerate TM_EDGE 4 [] [0, 1, 2] [⟨0, 1, 0, 0⟩] [] [I4q, I4q]
        = some ([0, 1, 2], [⟨0, 1, 0, 0⟩], [], [0, 1, 2, 4, 0, 1, 2, 4], 5) ∧
    (([0, 1, 2], [(⟨0, 1, 0, 0⟩ : edge)], ([] : List vertex),
        [0, 1, 2, 4, 0, 1, 2, 4], 5) :
          List ℕ × List edge × List vertex × List ℕ × ℕ).2.1
      = (([(⟨0, 1, 0, 0⟩ : edge)]).enum.filter (fun ie =>
          goodDet ([I4q, I4q].getD (2 * ie.1) mat0)
            && goodDet ([I4q, I4q].getD (2 * ie.1 + 1) mat0))).map Prod.snd := by
  have hgood : goodDet I4q = true := by
    norm_num [goodDet, I4q, det4, det3, EPSILON]
  have hrd : removeDegenerate TM_EDGE 4 [] [0, 1, 2] [⟨0, 1, 0, 0⟩] [] [I4q, I4q]
      = some ([0, 1, 2], [⟨0, 1, 0, 0⟩], [], [0, 1, 2, 4, 0, 1, 2, 4], 5) := by
    rw [removeDegenerate, if_neg (by norm_num [TM_EDGE, TM_FACE]), if_pos rfl]
    have hfe : filterEdges [I4q, I4q] 0 [⟨0, 1, 0, 0⟩] = [⟨0, 1, 0, 0⟩] := by
      rw [filterEdges]
      simp [hgood, filterEdges]
    rw [hfe]
    norm_num [makeTetList, TM_EDGE, TM_FACE, edgeTets, edgeFaceTet, findThird, bind]
  exact ⟨hrd,
    (C2_removeDegenerate_policy 4 [] [0, 1, 2] [⟨0, 1, 0, 0⟩] [] [I4q, I4q]).1 _ hrd⟩

/-- number of slots of the face list carrying a given canonical pair -/
def pairCount (l : List (ℕ × ℕ × ℕ)) (p : ℕ × ℕ) : ℕ :=
  l.countP (fun sl => sl.2 == p)

/-- number of emitted edges with the given (canonical) endpoint pair -/
def edgePairCount (l : List edge) (p : ℕ × ℕ) : ℕ :=
  l.countP (fun e => (e.v0, e.v1) == p)

/-- the three canonical corner pairs of face f of the flat face list -/
def facePairs (fl : List ℕ) (f : ℕ) : List (ℕ × ℕ) :=
  match (triples fl).get? f with
  | some (x, y, z) => [cpair x y, cpair y z, cpair z x]
  | none => []

theorem cpair_le (s t : ℕ) : (cpair s t).1 ≤ (cpair s t).2 := by
  unfold cpair
  split <;> simp <;> omega

theorem lookupPair_mem : ∀ (m : List ((ℕ × ℕ) × ℕ)) (pa : ℕ × ℕ) (x : ℕ),
    lookupPair m pa = some x → (pa, x) ∈ m := by
  intro m
  induction m with
  | nil => intro pa x h; simp [lookupPair] at h
  | cons kv rest ih =>
    intro pa x h
    cases kv with
    | mk k v =>
      rw [lookupPair] at h
      by_cases hk : pa = k
      · rw [if_pos hk] at h
        simp only [Option.some.injEq] at h
        subst hk; subst h
        exact List.mem_cons_self _ _
      · rw [if_neg hk] at h
        exact List.mem_cons_of_mem _ (ih pa x h)

theorem makeEdgeListGo_count (p : ℕ × ℕ) :
    ∀ (l : List (ℕ × ℕ × ℕ)) (seen : List ((ℕ × ℕ) × ℕ)),
      edgePairCount (makeEdgeListGo seen l) p
        = if (lookupPair seen p).isSome then pairCount l p else pairCount l p - 1 := by
  intro l
  induction l with
  | nil =>
    intro seen
    simp [makeEdgeListGo, edgePairCount, pairCount]
  | cons sl rest ih =>
    intro seen
    obtain ⟨f, s, t⟩ := sl
    rw [makeEdgeListGo]
    have hcnt : pairCount ((f, s, t) :: rest) p
        = pairCount rest p + if (s, t) = p then 1 else 0 := by
      simp only [pairCount, List.countP_cons]
      by_cases hp : (s, t) = p
      · simp [hp]
      · simp [hp]
    cases hl : lookupPair seen (s, t) with
    | none =>
      rw [ih (((s, t), f) :: seen)]
      by_cases hp : (s, t) = p
      · subst hp
        rw [lookupPair, if_pos rfl]
        rw [hl] at *
        simp [hcnt]
      · have : lookupPair (((s, t), f) :: seen) p = lookupPair seen p := by
          rw [lookupPair, if_neg (fun hh => hp hh.symm)]
        rw [this, hcnt, if_neg hp]
        by_cases hs : (lookupPair seen p).isSome <;> simp [hs]
    | some f0 =>
      have hhead : edgePairCount (edge.mk s t f0 f :: makeEdgeListGo seen rest) p
          = edgePairCount (makeEdgeListGo seen rest) p + if (s, t) = p then 1 else 0 := by
        simp only [edgePairCount, List.countP_cons]
        by_cases hp : (s, t) = p
        · simp [hp]
        · simp [hp]
      rw [hhead, ih seen, hcnt]
      by_cases hp : (s, t) = p
      · subst hp
        rw [hl]
        simp
      · simp [hp]

theorem facePairs_cons (x y z k : ℕ) (rest : List ℕ) :
    facePairs (x :: y :: z :: rest) (k + 1) = facePairs rest k := by
  simp only [facePairs, triples, List.get?_cons_succ]

theorem facePairs_cons_zero (x y z : ℕ) (rest : List ℕ) :
    facePairs (x :: y :: z :: rest) 0 = [cpair x y, cpair y z, cpair z x] := by
  simp only [facePairs, triples, List.get?_cons_zero]

theorem slots_sound : ∀ (i : ℕ) (l : List ℕ) (f s t : ℕ), (f, s, t) ∈ slots i l →
    s ≤ t ∧ i ≤ f ∧ (s, t) ∈ facePairs l (f - i) := by
  intro i l
  induction i, l using slots.induct with
  | case1 i x y z rest ih =>
    intro f s t h
    simp only [slots, List.mem_cons] at h
    have hone : ∀ a b : ℕ, (f, s, t) = (i, cpair a b) →
        s ≤ t ∧ i ≤ f ∧ (s, t) ∈ ([cpair x y, cpair y z, cpair z x] : List (ℕ × ℕ)) →
          s ≤ t ∧ i ≤ f ∧ (s, t) ∈ facePairs (x :: y :: z :: rest) (f - i) := by
      intro a b hh hc
      have hf : f = i := congrArg Prod.fst hh
      have hz : f - i = 0 := by omega
      rw [hz, facePairs_cons_zero]
      exact hc
    rcases h with h | h | h | h
    · have hf : f = i := congrArg Prod.fst h
      have hst : (s, t) = cpair x y := congrArg Prod.snd h
      have hle := cpair_le x y
      rw [← hst] at hle
      have hz : f - i = 0 := by omega
      rw [hz, facePairs_cons_zero]
      exact ⟨hle, by omega, by rw [hst]; simp⟩
    · have hf : f = i := congrArg Prod.fst h
      have hst : (s, t) = cpair y z := congrArg Prod.snd h
      have hle := cpair_le y z
      rw [← hst] at hle
      have hz : f - i = 0 := by omega
      rw [hz, facePairs_cons_zero]
      exact ⟨hle, by omega, by rw [hst]; simp⟩
    · have hf : f = i := congrArg Prod.fst h
      have hst : (s, t) = cpair z x := congrArg Prod.snd h
      have hle := cpair_le z x
      rw [← hst] at hle
      have hz : f - i = 0 := by omega
      rw [hz, facePairs_cons_zero]
      exact ⟨hle, by omega, by rw [hst]; simp⟩
    · obtain ⟨h1, h2, h3⟩ := ih f s t h
      have hk : f - i = (f - (i + 1)) + 1 := by omega
      rw [hk, facePairs_cons]
      exact ⟨h1, by omega, h3⟩
  | case2 l i h =>
    intro f s t hm
    match l, h with
    | [], _ => simp [slots] at hm
    | [a], _ => simp [slots] at hm
    | [a, b], _ => simp [slots] at hm
    | a :: b :: c :: r, h => exact absurd rfl (h a b c r)

theorem makeEdgeListGo_mem (fl : List ℕ) :
    ∀ (l : List (ℕ × ℕ × ℕ)) (seen : List ((ℕ × ℕ) × ℕ)),
      (∀ kv ∈ seen, kv.1.1 ≤ kv.1.2 ∧ kv.1 ∈ facePairs fl kv.2) →
      (∀ sl ∈ l, sl.2.1 ≤ sl.2.2 ∧ sl.2 ∈ facePairs fl sl.1) →
      ∀ e ∈ makeEdgeListGo seen l,
        e.v0 ≤ e.v1 ∧ (e.v0, e.v1) ∈ facePairs fl e.f0
          ∧ (e.v0, e.v1) ∈ facePairs fl e.f1 := by
  intro l
  induction l with
  | nil => intro seen _ _ e he; simp [makeEdgeListGo] at he
  | cons sl rest ih =>
    intro seen hseen hslots e he
    obtain ⟨f, s, t⟩ := sl
    have hhead := hslots (f, s, t) (List.mem_cons_self _ _)
    cases hl : lookupPair seen (s, t) with
    | none =>
      simp only [makeEdgeListGo, hl] at he
      refine ih (((s, t), f) :: seen) ?_ ?_ e he
      · intro kv hkv
        rcases List.mem_cons.mp hkv with hk | hk
        · subst hk; exact hhead
        · exact hseen kv hk
      · intro sl' hsl'
        exact hslots sl' (List.mem_cons_of_mem _ hsl')
    | some f0 =>
      simp only [makeEdgeListGo, hl] at he
      rcases List.mem_cons.mp he with hh | hh
      · subst hh
        have hkv := hseen ((s, t), f0) (lookupPair_mem seen (s, t) f0 hl)
        exact ⟨hhead.1, hkv.2, hhead.2⟩
      · exact ih seen hseen (fun sl' hsl' => hslots sl' (List.mem_cons_of_mem _ hsl')) e hh

/-- C6: when no canonical vertex pair occupies more than two corner slots
of the face list, makeEdgeList emits exactly one edge per pair occupying
exactly two slots (recording two faces that do contain the pair) and none
for a pair occupying a single slot, and every emitted edge stores its
smaller point index first. -/
theorem C6_makeEdgeList_interior (fl : List ℕ)
    (hmul : ∀ p ∈ (slots 0 fl).map (fun sl => sl.2), pairCount (slots 0 fl) p ≤ 2) :
    (∀ p : ℕ × ℕ, edgePairCount (makeEdgeList fl) p
        = if pairCount (slots 0 fl) p = 2 then 1 else 0) ∧
      ∀ e ∈ makeEdgeList fl, e.v0 ≤ e.v1 ∧
        (e.v0, e.v1) ∈ facePairs fl e.f0 ∧ (e.v0, e.v1) ∈ facePairs fl e.f1 := by
  constructor
  · intro p
    have hc := makeEdgeListGo_count p (slots 0 fl) []
    rw [show lookupPair [] p = none from rfl] at hc
    simp only [Option.isSome_none, Bool.false_eq_true, if_false] at hc
    rw [makeEdgeList, hc]
    by_cases hp : p ∈ (slots 0 fl).map (fun sl => sl.2)
    · have hle := hmul p hp
      have hge : 1 ≤ pairCount (slots 0 fl) p := by
        rcases List.mem_map.mp hp with ⟨sl, hsl, hp2⟩
        have : 0 < pairCount (slots 0 fl) p :=
          List.countP_pos.mpr ⟨sl, hsl, by simp [hp2]⟩
        omega
      split_ifs with h2 <;> omega
    · have h0 : pairCount (slots 0 fl) p = 0 := by
        rw [pairCount, List.countP_eq_zero]
        intro sl hsl
        simp only [beq_iff_eq]
        intro hq
        exact hp (List.mem_map.mpr ⟨sl, hsl, hq⟩)
      rw [h0]
      simp
  · intro e he
    refine makeEdgeListGo_mem fl (slots 0 fl) [] (by simp) ?_ e he
    intro sl hsl
    obtain ⟨f, s, t⟩ := sl
    have := slots_sound 0 fl f s t hsl
    simpa using this

/-- witness for C6 on two triangles sharing the diagonal (1, 2) -/
theorem C6_witness :
    (∀ p ∈ (slots 0 [0, 1, 2, 2, 1, 3]).map (fun sl => sl.2),
        pairCount (slots 0 [0, 1, 2, 2, 1, 3]) p ≤ 2) ∧
      ((∀ p : ℕ × ℕ, edgePairCount (makeEdgeList [0, 1, 2, 2, 1, 3]) p
          = if pairCount (slots 0 [0, 1, 2, 2, 1, 3]) p = 2 then 1 else 0) ∧
        ∀ e ∈ makeEdgeList [0, 1, 2, 2, 1, 3], e.v0 ≤ e.v1 ∧
          (e.v0, e.v1) ∈ facePairs [0, 1, 2, 2, 1, 3] e.f0 ∧
          (e.v0, e.v1) ∈ facePairs [0, 1, 2, 2, 1, 3] e.f1) :=
  ⟨by decide, C6_makeEdgeList_interior [0, 1, 2, 2, 1, 3] (by decide)⟩

/-- count of a pair in a cons list, with a propositional condition -/
theorem count_cons_pair (a b : ℕ × ℕ) (l : List (ℕ × ℕ)) :
    List.count a (b :: l) = List.count a l + if a = b then 1 else 0 := by
  rw [List.count_cons]
  congr 1
  by_cases h : a = b
  · simp [h]
  · simp [beq_iff_eq, h, Ne.symm h]

theorem applyOps_count : ∀ (ops : List (ℕ × ℕ)) (m : ℕ → List ℕ) (x q : ℕ),
    List.count q (applyOps m ops x) = List.count q (m x) + List.count (x, q) ops := by
  intro ops
  induction ops with
  | nil => intro m x q; simp [applyOps]
  | cons op ops ih =>
    intro m x q
    obtain ⟨c, d⟩ := op
    rw [applyOps, ih, count_cons_pair]
    simp only [Prod.mk.injEq]
    by_cases hx : x = c
    · subst hx
      simp only [eq_self_iff_true, if_true, true_and, List.count_append]
      have hone : List.count q [d] = if q = d then 1 else 0 := by
        rw [count_cons_nat]
        simp
      rw [hone]
      split_ifs <;> omega
    · have hnc : ¬(x = c ∧ q = d) := fun hh => hx hh.1
      simp only [if_neg hx, if_neg hnc]
      omega

theorem count_swap_block (c d a b : ℕ) :
    List.count (a, b) [(c, d), (d, c)] = List.count (b, a) [(c, d), (d, c)] := by
  rw [count_cons_pair, count_cons_pair, count_cons_pair, count_cons_pair]
  simp only [List.count_nil, Prod.mk.injEq]
  split_ifs <;> omega

theorem count_flatMap_pairs {α : Type} (f g : α → ℕ) :
    ∀ (l : List α) (a b : ℕ),
      List.count (a, b) (l.flatMap (fun x => [(f x, g x), (g x, f x)]))
        = List.count (b, a) (l.flatMap (fun x => [(f x, g x), (g x, f x)])) := by
  intro l
  induction l with
  | nil => intro a b; simp
  | cons x xs ih =>
    intro a b
    simp only [List.flatMap_cons]
    rw [List.count_append, List.count_append]
    have hb := count_swap_block (f x) (g x) a b
    have hr := ih a b
    omega

theorem edgeAdjOps_sym : ∀ (es : List edge) (fs : ℕ → List ℕ) (i a b : ℕ),
    List.count (a, b) (edgeAdjOps fs i es) = List.count (b, a) (edgeAdjOps fs i es) := by
  intro es
  induction es with
  | nil => intro fs i a b; simp [edgeAdjOps]
  | cons e es ih =>
    intro fs i a b
    simp only [edgeAdjOps, List.count_append, count_cons_pair]
    have hs0 := count_flatMap_pairs (fun _ => 2 * i) (fun x => x) (fs e.f0) a b
    have hs1 := count_flatMap_pairs (fun _ => 2 * i + 1) (fun x => x) (fs e.f1) a b
    have hr := ih (fun y => if y = e.f1 then
        (if y = e.f0 then fs y ++ [2 * i] else fs y) ++ [2 * i + 1]
      else if y = e.f0 then fs y ++ [2 * i] else fs y) (i + 1) a b
    simp only [Prod.mk.injEq]
    split_ifs <;> omega

/-- the rows of the fan-local clique insertions: for n successive wedges
starting at cur, the whole list adj is appended to slot cur + row -/
def cliqueRows (adj : List ℕ) : ℕ → ℕ → List (ℕ × ℕ)
  | _, 0 => []
  | cur, n + 1 => adj.map (fun b => (cur, b)) ++ cliqueRows adj (cur + 1) n

theorem count_map_row (c a b : ℕ) : ∀ adj : List ℕ,
    List.count (a, b) (adj.map (fun x => (c, x)))
      = if a = c then List.count b adj else 0 := by
  intro adj
  induction adj with
  | nil => simp
  | cons y ys ih =>
    simp only [List.map_cons]
    rw [count_cons_pair, ih, count_cons_nat]
    simp only [Prod.mk.injEq]
    split_ifs <;> omega

theorem count_cliqueRows (adj : List ℕ) : ∀ (n cur a b : ℕ),
    List.count (a, b) (cliqueRows adj cur n)
      = (if cur ≤ a ∧ a < cur + n then 1 else 0) * List.count b adj := by
  intro n
  induction n with
  | zero =>
    intro cur a b
    simp only [cliqueRows, List.count_nil]
    rw [if_neg (by omega)]
    simp
  | succ n ih =>
    intro cur a b
    rw [cliqueRows, List.count_append, count_map_row, ih]
    split_ifs <;> omega

theorem count_range_map (x : ℕ) : ∀ (k cur : ℕ),
    List.count x ((List.range k).map (fun j => cur + j))
      = if cur ≤ x ∧ x < cur + k then 1 else 0 := by
  intro k
  induction k with
  | zero =>
    intro cur
    simp only [List.range_zero, List.map_nil, List.count_nil]
    rw [if_neg (by omega)]
  | succ k ih =>
    intro cur
    rw [List.range_succ]
    simp only [List.map_append, List.map_cons, List.map_nil]
    rw [List.count_append, ih, count_cons_nat]
    simp only [List.count_nil]
    split_ifs <;> omega

theorem stepPair_ops_sym (m : List ((ℕ × ℕ) × ℕ)) (pa : ℕ × ℕ) (cur a b : ℕ) :
    List.count (a, b) (stepPair m pa cur).1 = List.count (b, a) (stepPair m pa cur).1 := by
  rw [stepPair]
  cases lookupPair m pa with
  | none => simp
  | some x => exact count_swap_block cur x a b

theorem wAdjOps_count (vIdx : ℕ) (adj : List ℕ) :
    ∀ (ws : List (ℕ × ℕ)) (m : List ((ℕ × ℕ) × ℕ)) (cur a b : ℕ),
      List.count (a, b) (wAdjOps vIdx adj m cur ws).1
          + List.count (b, a) (cliqueRows adj cur ws.length)
        = List.count (b, a) (wAdjOps vIdx adj m cur ws).1
          + List.count (a, b) (cliqueRows adj cur ws.length) := by
  intro ws
  induction ws with
  | nil => intro m cur a b; simp [wAdjOps, cliqueRows]
  | cons st ws ih =>
    intro m cur a b
    obtain ⟨s, t⟩ := st
    have h1 := stepPair_ops_sym m (vIdx, s) cur a b
    have h2 := stepPair_ops_sym (stepPair m (vIdx, s) cur).2 (t, vIdx) cur a b
    have hr := ih (stepPair (stepPair m (vIdx, s) cur).2 (t, vIdx) cur).2 (cur + 1) a b
    have hma := count_map_row cur a b adj
    have hmb := count_map_row cur b a adj
    simp only [wAdjOps, cliqueRows, List.length_cons, List.count_append]
    omega

theorem wAdjOps_ge_rows (vIdx : ℕ) (adj : List ℕ) :
    ∀ (ws : List (ℕ × ℕ)) (m : List ((ℕ × ℕ) × ℕ)) (cur : ℕ) (p : ℕ × ℕ),
      List.count p (cliqueRows adj cur ws.length)
        ≤ List.count p (wAdjOps vIdx adj m cur ws).1 := by
  intro ws
  induction ws with
  | nil => intro m cur p; simp [wAdjOps, cliqueRows]
  | cons st ws ih =>
    intro m cur p
    obtain ⟨s, t⟩ := st
    have hr := ih (stepPair (stepPair m (vIdx, s) cur).2 (t, vIdx) cur).2 (cur + 1) p
    simp only [wAdjOps, cliqueRows, List.length_cons, List.count_append]
    omega

theorem vAdjOps_sym : ∀ (vl : List vertex) (m : List ((ℕ × ℕ) × ℕ)) (cur a b : ℕ),
    List.count (a, b) (vAdjOps m cur vl) = List.count (b, a) (vAdjOps m cur vl) := by
  intro vl
  induction vl with
  | nil => intro m cur a b; simp [vAdjOps]
  | cons v vs ih =>
    intro m cur a b
    simp only [vAdjOps, List.count_append]
    have hlen : (wedges v.connectedTriangles).length
        = v.connectedTriangles.length / 2 := wedges_length _
    have hw := wAdjOps_count v.index
      ((List.range (v.connectedTriangles.length / 2)).map (fun j => cur + j))
      (wedges v.connectedTriangles) m cur a b
    have hca := count_cliqueRows
      ((List.range (v.connectedTriangles.length / 2)).map (fun j => cur + j))
      (wedges v.connectedTriangles).length cur a b
    have hcb := count_cliqueRows
      ((List.range (v.connectedTriangles.length / 2)).map (fun j => cur + j))
      (wedges v.connectedTriangles).length cur b a
    have hra := count_range_map b (v.connectedTriangles.length / 2) cur
    have hrb := count_range_map a (v.connectedTriangles.length / 2) cur
    have hclique : List.count (a, b) (cliqueRows
          ((List.range (v.connectedTriangles.length / 2)).map (fun j => cur + j))
          cur (wedges v.connectedTriangles).length)
        = List.count (b, a) (cliqueRows
          ((List.range (v.connectedTriangles.length / 2)).map (fun j => cur + j))
          cur (wedges v.connectedTriangles).length) := by
      rw [hca, hcb, hra, hrb, hlen]
      split_ifs <;> omega
    have hrest := ih (wAdjOps v.index
      ((List.range (v.connectedTriangles.length / 2)).map (fun j => cur + j))
      m cur (wedges v.connectedTriangles)).2 (cur + v.connectedTriangles.length / 2) a b
    omega

/-- C7: for every mode the adjacency list built by makeAdjacencyList is
symmetric counting multiplicity: the number of occurrences of b in the
list of a equals the number of occurrences of a in the list of b. -/
theorem C7_adjacency_symmetric (tetMode : ℕ) (tl : List ℕ) (el : List edge)
    (vl : List vertex) (a b : ℕ) :
    List.count b (makeAdjacencyList tetMode tl el vl a)
      = List.count a (makeAdjacencyList tetMode tl el vl b) := by
  rw [makeAdjacencyList, applyOps_count, applyOps_count]
  simp only [List.count_nil, Nat.zero_add]
  rw [adjOps]
  split_ifs with h1 h2 h3
  · exact count_flatMap_pairs (fun e => e.f0) (fun e => e.f1) el a b
  · exact edgeAdjOps_sym el (fun _ => []) 0 a b
  · exact vAdjOps_sym vl [] 0 a b
  · simp

/-- the index of the first wedge of vertex i (total wedge count of the
vertices before it) -/
def wedgeOffset : List vertex → ℕ → ℕ
  | _, 0 => 0
  | [], _ + 1 => 0
  | v :: vs, i + 1 => v.connectedTriangles.length / 2 + wedgeOffset vs i

theorem vAdjOps_self : ∀ (vl : List vertex) (i : ℕ) (hi : i < vl.length) (j : ℕ),
    j < (vl.get ⟨i, hi⟩).connectedTriangles.length / 2 →
    ∀ (m : List ((ℕ × ℕ) × ℕ)) (cur : ℕ),
      1 ≤ List.count (cur + wedgeOffset vl i + j, cur + wedgeOffset vl i + j)
        (vAdjOps m cur vl) := by
  intro vl
  induction vl with
  | nil => intro i hi; simp at hi
  | cons v vs ih =>
    intro i hi j hj m cur
    cases i with
    | zero =>
      simp only [List.get] at hj
      have hlen : (wedges v.connectedTriangles).length
          = v.connectedTriangles.length / 2 := wedges_length _
      have hone : List.count (cur + j, cur + j) (cliqueRows
          ((List.range (v.connectedTriangles.length / 2)).map (fun jj => cur + jj))
          cur (wedges v.connectedTriangles).length) = 1 := by
        rw [count_cliqueRows, count_range_map, hlen]
        have hc1 : cur ≤ cur + j ∧ cur + j < cur + v.connectedTriangles.length / 2 := by
          omega
        rw [if_pos hc1]
      have hge := wAdjOps_ge_rows v.index
        ((List.range (v.connectedTriangles.length / 2)).map (fun jj => cur + jj))
        (wedges v.connectedTriangles) m cur (cur + j, cur + j)
      simp only [vAdjOps, List.count_append, wedgeOffset, Nat.add_zero]
      omega
    | succ i' =>
      have hi' : i' < vs.length := by
        simp only [List.length_cons] at hi
        omega
      have hj' : j < (vs.get ⟨i', hi'⟩).connectedTriangles.length / 2 := by
        simpa [List.get] using hj
      have := ih i' hi' j hj'
        (wAdjOps v.index
          ((List.range (v.connectedTriangles.length / 2)).map (fun jj => cur + jj))
          m cur (wedges v.connectedTriangles)).2
        (cur + v.connectedTriangles.length / 2)
      simp only [vAdjOps, List.count_append, wedgeOffset]
      have harith : cur + v.connectedTriangles.length / 2 + wedgeOffset vs i' + j
          = cur + (v.connectedTriangles.length / 2 + wedgeOffset vs i') + j := by
        omega
      rw [harith] at this
      omega

/-- C10: in per-vertex and vface modes every wedge tetrahedron is listed
as adjacent to itself: the fan-local clique insertion writes the wedge's
own index into its own adjacency list. -/
theorem C10_wedge_self_adjacency (tetMode : ℕ) (tl : List ℕ) (el : List edge)
    (vl : List vertex) (i j : ℕ)
    (hmode : tetMode = TM_VERTEX ∨ tetMode = TM_VFACE)
    (hi : i < vl.length)
    (hj : j < (vl.get ⟨i, hi⟩).connectedTriangles.length / 2) :
    (wedgeOffset vl i + j) ∈ makeAdjacencyList tetMode tl el vl (wedgeOffset vl i + j) := by
  have hcnt := vAdjOps_self vl i hi j hj [] 0
  have hops : adjOps tetMode tl el vl = vAdjOps [] 0 vl := by
    rcases hmode with hm | hm <;> subst hm
    · rw [adjOps, if_neg (by norm_num [TM_VERTEX, TM_FACE]),
        if_neg (by norm_num [TM_VERTEX, TM_EDGE]), if_pos (Or.inl rfl)]
    · rw [adjOps, if_neg (by norm_num [TM_VFACE, TM_FACE]),
        if_neg (by norm_num [TM_VFACE, TM_EDGE]), if_pos (Or.inr rfl)]
  rw [makeAdjacencyList, hops]
  refine List.count_pos_iff.mp ?_
  rw [applyOps_count]
  have hz : List.count (wedgeOffset vl i + j)
      ((fun _ => ([] : List ℕ)) (wedgeOffset vl i + j)) = 0 := rfl
  rw [hz]
  have hcnt' : 1 ≤ List.count (wedgeOffset vl i + j, wedgeOffset vl i + j)
      (vAdjOps [] 0 vl) := by simpa using hcnt
  omega

/-- witness for C10 at a single vertex with one wedge -/
theorem C10_witness :
    (wedgeOffset [⟨3, [1, 2]⟩] 0 + 0)
      ∈ makeAdjacencyList TM_VERTEX [] [] [⟨3, [1, 2]⟩] (wedgeOffset [⟨3, [1, 2]⟩] 0 + 0) :=
  C10_wedge_self_adjacency TM_VERTEX [] [] [⟨3, [1, 2]⟩] 0 0 (Or.inl rfl)
    (by decide) (by decide)

/-- C5: distPtLin does not guard coincident endpoints: at p = (2,3,4) and
a = b = (1,1,1) the denominator (a-b).squaredNorm() is exactly zero, so
the source divides by zero (yielding NaN on doubles, modelled as none);
the claimed guard does not exist in the code. -/
theorem C5_distPtLin_zero_denominator :
    sqq (subq ((1 : ℚ), (1 : ℚ), (1 : ℚ)) (1, 1, 1)) = 0 ∧
      distPtLin (2, 3, 4) (1, 1, 1) (1, 1, 1) = none := by
  have hz : sqq (subq ((1 : ℚ), (1 : ℚ), (1 : ℚ)) (1, 1, 1)) = 0 := by
    norm_num [sqq, subq]
  refine ⟨hz, ?_⟩
  rw [distPtLin, if_pos hz]

/-- C3 counterexample: for the triangle a = 0, b = e1, c = e2 (normal
(0,0,1)) the code returns the finite squared distance 1 at the point
(0,0,-1) and the HUGE_VAL sentinel at the point (0,0,1): exactly the
opposite sides from what the claim states. -/
theorem C3_counterexample :
    distPtTri (0, 0, -1) (0, 0, 0) (1, 0, 0) (0, 1, 0) = some (some 1) ∧
      distPtTri (0, 0, 1) (0, 0, 0) (1, 0, 0) (0, 1, 0) = some none := by
  constructor
  · norm_num [distPtTri, distPtLin, crossq, subq, dotq, sqq, smulq, det3, dmin,
      EPSILON, min_def]
  · norm_num [distPtTri, crossq, subq, dotq, sqq, EPSILON]

/-- C3 (amended): distPtTri returns the infinite sentinel exactly for
points on the side the normal n = (b-a) x (c-a) points toward, i.e. when
n . (a-p) < 0 (and the triangle is not degenerate); on the reference
triangle the sentinel appears at (0,0,1) and the finite value 1 at
(0,0,-1) - the two test points of the claim are swapped. -/
theorem C3_distPtTri_outer_rejection :
    (∀ p a b c : Vq, ¬ sqq (crossq (subq b a) (subq c a)) < EPSILON →
      dotq (crossq (subq b a) (subq c a)) (subq a p) < 0 →
      distPtTri p a b c = some none) ∧
      distPtTri (0, 0, 1) (0, 0, 0) (1, 0, 0) (0, 1, 0) = some none ∧
      distPtTri (0, 0, -1) (0, 0, 0) (1, 0, 0) (0, 1, 0) = some (some 1) := by
  refine ⟨?_, ?_, ?_⟩
  · intro p a b c hn hk
    simp only [distPtTri]
    rw [if_neg hn, if_pos hk]
  · norm_num [distPtTri, crossq, subq, dotq, sqq, EPSILON]
  · norm_num [distPtTri, distPtLin, crossq, subq, dotq, sqq, smulq, det3, dmin,
      EPSILON, min_def]

/-- witness for C3 at the outer point (0, 0, 5) -/
theorem C3_witness :
    distPtTri (0, 0, 5) (0, 0, 0) (1, 0, 0) (0, 1, 0) = some none :=
  C3_distPtTri_outer_rejection.1 (0, 0, 5) (0, 0, 0) (1, 0, 0) (0, 1, 0)
    (by norm_num [sqq, crossq, subq, EPSILON])
    (by norm_num [dotq, crossq, subq])

theorem sqnormv_smul (t : ℝ) (v : Vec3) : sqnormv (smulv t v) = t ^ 2 * sqnormv v := by
  obtain ⟨x, y, z⟩ := v
  simp only [smulv, sqnormv]
  ring

theorem sqnormv_pos (v : Vec3) (h : v ≠ ((0 : ℝ), (0 : ℝ), (0 : ℝ))) : 0 < sqnormv v := by
  obtain ⟨x, y, z⟩ := v
  simp only [sqnormv]
  rcases lt_or_eq_of_le (by positivity : (0 : ℝ) ≤ x ^ 2 + y ^ 2 + z ^ 2) with hlt | heq
  · exact hlt
  · exfalso
    apply h
    have hx : x = 0 := by nlinarith [sq_nonneg x, sq_nonneg y, sq_nonneg z]
    have hy : y = 0 := by nlinarith [sq_nonneg x, sq_nonneg y, sq_nonneg z]
    have hz : z = 0 := by nlinarith [sq_nonneg x, sq_nonneg y, sq_nonneg z]
    rw [hx, hy, hz]

theorem sqnormv_normalized (v : Vec3) (h : v ≠ ((0 : ℝ), (0 : ℝ), (0 : ℝ))) :
    sqnormv (normalizedv v) = 1 := by
  have hpos := sqnormv_pos v h
  rw [normalizedv, sqnormv_smul, inv_pow, Real.sq_sqrt (le_of_lt hpos)]
  exact inv_mul_cancel₀ (ne_of_gt hpos)

theorem edge1_mat (p0 w1 w2 c : Vec3) :
    edge1 (mat p0 (addv p0 w1) (addv p0 w2) c) = w1 := by
  obtain ⟨a1, a2, a3⟩ := p0
  obtain ⟨x1, x2, x3⟩ := w1
  simp only [mat, addv, edge1, Prod.mk.injEq]
  refine ⟨?_, ?_, ?_⟩ <;> ring

theorem edge2_mat (p0 w1 w2 c : Vec3) :
    edge2 (mat p0 (addv p0 w1) (addv p0 w2) c) = w2 := by
  obtain ⟨a1, a2, a3⟩ := p0
  obtain ⟨x1, x2, x3⟩ := w2
  simp only [mat, addv, edge2, Prod.mk.injEq]
  refine ⟨?_, ?_, ?_⟩ <;> ring

theorem subv_ne_zero (a b : Vec3) (h : a ≠ b) : subv a b ≠ ((0 : ℝ), (0 : ℝ), (0 : ℝ)) := by
  obtain ⟨a1, a2, a3⟩ := a
  obtain ⟨b1, b2, b3⟩ := b
  intro hh
  apply h
  simp only [subv, Prod.mk.injEq] at hh
  obtain ⟨h1, h2, h3⟩ := hh
  simp only [Prod.mk.injEq]
  refine ⟨by linarith, by linarith, by linarith⟩

/-- C4 (amended): tetMatrixNormalised produces exactly the same frame list
as the plain builder tetMatrix for BOTH per-face and per-edge modes (the
source reuses tetMatrix for both), and rescales the two non-apex edge
vectors to unit length only in vface and per-vertex modes (whenever the
corresponding fan neighbour does not coincide with the base point). -/
theorem C4_tetMatrixNormalised_modes :
    (∀ (pts : ℕ → Vec3) (tl fl : List ℕ) (el : List edge) (vl : List vertex),
      tetMatrixNormalised TM_FACE pts tl fl el vl = tetMatrix TM_FACE pts tl fl el vl ∧
        tetMatrixNormalised TM_EDGE pts tl fl el vl = tetMatrix TM_EDGE pts tl fl el vl) ∧
      (∀ (pts : ℕ → Vec3) (t : ℕ × ℕ × ℕ × ℕ),
        (pts t.2.1 ≠ pts t.1 → sqnormv (edge1 (vfaceTetMatN pts t)) = 1) ∧
          (pts t.2.2.1 ≠ pts t.1 → sqnormv (edge2 (vfaceTetMatN pts t)) = 1)) ∧
      (∀ (pts : ℕ → Vec3) (p0 c : Vec3) (st : ℕ × ℕ),
        (pts st.1 ≠ p0 → sqnormv (edge1 (vertWedgeMatN pts p0 c st)) = 1) ∧
          (pts st.2 ≠ p0 → sqnormv (edge2 (vertWedgeMatN pts p0 c st)) = 1)) := by
  refine ⟨?_, ?_, ?_⟩
  · intro pts tl fl el vl
    constructor
    · rw [tetMatrixNormalised, if_pos (Or.inl rfl)]
    · rw [tetMatrixNormalised, if_pos (Or.inr rfl)]
  · intro pts t
    constructor
    · intro h
      simp only [vfaceTetMatN]
      rw [edge1_mat]
      exact sqnormv_normalized _ (subv_ne_zero _ _ h)
    · intro h
      simp only [vfaceTetMatN]
      rw [edge2_mat]
      exact sqnormv_normalized _ (subv_ne_zero _ _ h)
  · intro pts p0 c st
    constructor
    · intro h
      simp only [vertWedgeMatN]
      rw [edge1_mat]
      exact sqnormv_normalized _ (subv_ne_zero _ _ h)
    · intro h
      simp only [vertWedgeMatN]
      rw [edge2_mat]
      exact sqnormv_normalized _ (subv_ne_zero _ _ h)

/-- C4 counterexample: in per-face mode the normalised builder returns the
very same list as the plain one, and on a triangle with edge p1 - p0 of
length 2 the first frame's row-1 edge vector has squared norm 4, not 1:
per-face frames are NOT rescaled to unit length. -/
theorem C4_counterexample :
    tetMatrixNormalised TM_FACE
        (fun n => if n = 1 then ((2 : ℝ), 0, 0) else if n = 2 then (0, 1, 0) else (0, 0, 0))
        [0, 1, 2, 3] [0, 1, 2] [] []
      = tetMatrix TM_FACE
        (fun n => if n = 1 then ((2 : ℝ), 0, 0) else if n = 2 then (0, 1, 0) else (0, 0, 0))
        [0, 1, 2, 3] [0, 1, 2] [] [] ∧
    sqnormv (edge1 ((tetMatrixNormalised TM_FACE
        (fun n => if n = 1 then ((2 : ℝ), 0, 0) else if n = 2 then (0, 1, 0) else (0, 0, 0))
        [0, 1, 2, 3] [0, 1, 2] [] []).getD 0 mat0R)) = 4 := by
  constructor
  · rw [tetMatrixNormalised, if_pos (Or.inl rfl)]
  · rw [tetMatrixNormalised, if_pos (Or.inl rfl), tetMatrix, if_pos (Or.inl rfl)]
    have ht : tetras [0, 1, 2, 3] = [(0, 1, 2, 3)] := by decide
    rw [ht, List.map_cons, List.map_nil, List.getD_cons_zero]
    norm_num [faceTetMat, mat, edge1, sqnormv]

/-- witness for C4: a vface frame built from a fan neighbour at distance 5
from the base point has unit row-1 edge vector -/
theorem C4_witness :
    sqnormv (edge1 (vfaceTetMatN
      (fun n => if n = 0 then ((0 : ℝ), 0, 0) else (3, 4, 0)) (0, 1, 2, 9))) = 1 :=
  (C4_tetMatrixNormalised_modes.2.1
    (fun n => if n = 0 then ((0 : ℝ), 0, 0) else (3, 4, 0)) (0, 1, 2, 9)).1
    (by norm_num [Prod.ext_iff])

end Tetrise
